import Mathlib

/-
Verification of scripts/fix_astro_class.py.

The program compiles the Python regex
  (<[A-Z][\w\.]+(?:\s+[^>]*?)?)\bclass=(["'][^"']*["'])
and applies pattern.sub with the replacement group1 ++ "className=" ++ group2
to the content of every file ending in ".astro" under a walked directory,
writing the file back (after printing a notification) only when the content
changed.

The matcher below is a direct shallow embedding of that regex with Python's
backtracking semantics, specialised to this pattern:
  - leftmost match: re.sub scans positions left to right;
  - [\w\.]+ is greedy with backtracking (longest first);
  - (?:\s+[^>]*?)? is a greedy option: the group is tried first, skipped on
    failure; inside it \s+ is greedy (longest run first) and [^>]*? is lazy
    (shortest first);
  - \b before the literal class= holds iff the preceding character is not a
    word character (the following character c is a word character);
  - ["'][^"']*["'] takes a quote of either kind, then the maximal run of
    non-quote characters, then a quote of either kind (backtracking inside
    the run cannot help, since every shortened boundary character is a
    non-quote, so the maximal run is exact).
Character classes model the ASCII fragment of Python's \w and \s; every
input in the claims is ASCII.

Text is modelled as List Char; re.sub is substAux driven by a length fuel
(each match consumes at least one character, so length is enough fuel).
-/

namespace FixAstro

/-- Character class [A-Z] of the pattern. -/
def isUpperAZ (c : Char) : Bool := 'A' ≤ c && c ≤ 'Z'

/-- ASCII fragment of Python regex \w : letters, digits, underscore. -/
def isWordChar (c : Char) : Bool := c.isAlphanum || c = '_'

/-- Character class [\w\.] of the pattern. -/
def isWordDot (c : Char) : Bool := isWordChar c || c = '.'

/-- ASCII fragment of Python regex \s . -/
def isSpaceChar (c : Char) : Bool :=
  c = ' ' || c = '\t' || c = '\n' || c = '\x0d' || c = '\x0b' || c = '\x0c'

/-- Character class ["'] of the pattern. -/
def isQuoteChar (c : Char) : Bool := c = '"' || c = '\''

/-- The literal token class= of the pattern. -/
def classEq : List Char := ('c' :: 'l' :: 'a' :: 's' :: 's' :: '=' :: [])

/-- The literal replacement token className= . -/
def classNameEq : List Char :=
  ('c' :: 'l' :: 'a' :: 's' :: 's' :: 'N' :: 'a' :: 'm' :: 'e' :: '=' :: [])

/-- Matching a literal list of characters; returns the remainder on success. -/
def matchLit : List Char → List Char → Option (List Char)
  | [], s => some s
  | _ :: _, [] => none
  | l :: ls, c :: cs => if c = l then matchLit ls cs else none

/-- Scan for the closing quote: the maximal run of non-quote characters,
then one quote character (the body, the closing quote, the remainder). -/
def quotedBody : List Char → Option (List Char × Char × List Char)
  | [] => none
  | c :: cs =>
    if isQuoteChar c then some ([], c, cs)
    else
      match quotedBody cs with
      | some (b, q2, r) => some (c :: b, q2, r)
      | none => none

/-- Group 2 of the pattern, ["'][^"']*["'] : the matched text and the
remainder. -/
def matchQuoted : List Char → Option (List Char × List Char)
  | [] => none
  | q :: rest =>
    if isQuoteChar q then
      match quotedBody rest with
      | some (b, q2, r) => some (q :: (b ++ (q2 :: [])), r)
      | none => none
    else none

/-- Attempt \bclass=["'][^"']*["'] at the current position; prev is the
character just before the position (for the word boundary). -/
def tryClassHere (prev : Char) (s : List Char) : Option (List Char × List Char) :=
  if isWordChar prev then none
  else
    match matchLit classEq s with
    | some s1 => matchQuoted s1
    | none => none

/-- The lazy tail [^>]*?\bclass=(["'][^"']*["']) : try the class= token at
the current position first, then extend the lazy run by one non-> character.
Returns (characters consumed by the lazy run, group 2, remainder). -/
def lazyLoop (prev : Char) (s : List Char) : Option (List Char × List Char × List Char) :=
  match tryClassHere prev s with
  | some (g2, rest) => some ([], g2, rest)
  | none =>
    match s with
    | [] => none
    | c :: cs =>
      if c = '>' then none
      else
        match lazyLoop c cs with
        | some (l, g2, rest) => some (c :: l, g2, rest)
        | none => none

/-- Greedy extension of the \s+ run (one whitespace character already
consumed, held in prev): extend the run while possible, backtracking to the
lazy tail at the current position. Returns (characters consumed after this
point, group 2, remainder). -/
def wsThenLazy (prev : Char) (s : List Char) : Option (List Char × List Char × List Char) :=
  match s with
  | [] => lazyLoop prev []
  | c :: cs =>
    if isSpaceChar c then
      match wsThenLazy c cs with
      | some (l, g2, rest) => some (c :: l, g2, rest)
      | none => lazyLoop prev (c :: cs)
    else lazyLoop prev (c :: cs)

/-- Skipping the optional group: \bclass= directly after the tag name. -/
def skipGroup (prev : Char) (s : List Char) : Option (List Char × List Char × List Char) :=
  match tryClassHere prev s with
  | some (g2, rest) => some ([], g2, rest)
  | none => none

/-- The optional group (?:\s+[^>]*?)? followed by \bclass=... : greedy
option, so the group (requiring at least one whitespace) is tried first and
skipped on failure. prev is the last character of the tag name. -/
def afterName (prev : Char) (s : List Char) : Option (List Char × List Char × List Char) :=
  match s with
  | [] => skipGroup prev []
  | c :: cs =>
    if isSpaceChar c then
      match wsThenLazy c cs with
      | some (l, g2, rest) => some (c :: l, g2, rest)
      | none => skipGroup prev (c :: cs)
    else skipGroup prev (c :: cs)

/-- Greedy [\w\.]+ continuation (at least one name character already
consumed, the last one held in prev): extend the name while possible,
backtracking to afterName. -/
def nameLoop (prev : Char) (s : List Char) : Option (List Char × List Char × List Char) :=
  match s with
  | [] => afterName prev []
  | c :: cs =>
    if isWordDot c then
      match nameLoop c cs with
      | some (l, g2, rest) => some (c :: l, g2, rest)
      | none => afterName prev (c :: cs)
    else afterName prev (c :: cs)

/-- Attempt the whole pattern at the head of s. On success returns
(group 1, group 2, the remainder after the matched span). -/
def tryMatch : List Char → Option (List Char × List Char × List Char)
  | l :: u :: s =>
    if l = '<' then
      if isUpperAZ u then
        match s with
        | [] => none
        | c :: cs =>
          if isWordDot c then
            match nameLoop c cs with
            | some (nm, g2, rest) => some ('<' :: u :: c :: nm, g2, rest)
            | none => none
          else none
      else none
    else none
  | _ => none

/-- Fuelled re.sub: scan left to right; on a match emit
group1 ++ className= ++ group2 and resume right after the matched span,
otherwise keep one character and move on. -/
def substAux : Nat → List Char → List Char
  | _, [] => []
  | 0, c :: cs => c :: cs
  | f + 1, c :: cs =>
    match tryMatch (c :: cs) with
    | some (g1, g2, rest) => g1 ++ classNameEq ++ g2 ++ substAux f rest
    | none => c :: substAux f cs

/-- pattern.sub(replace_match, content) : every match consumes at least one
character, so the length of the text is enough fuel. -/
def subst (s : List Char) : List Char := substAux s.length s

/-- A file visited by the walk: its path (the path fed to open; its basename
ends in .astro iff the path does, since os.path.join appends the basename)
and its current content. -/
structure FileEnt where
  path : List Char
  content : List Char
deriving DecidableEq

/-- The literal suffix .astro of the extension filter. -/
def astroSuffix : List Char := ('.' :: 'a' :: 's' :: 't' :: 'r' :: 'o' :: [])

/-- Case-sensitive literal suffix test, str.endswith(".astro"). -/
def endsWithAstro (p : List Char) : Bool := astroSuffix.isSuffixOf p

/-- Per-file body of fix_astro_files: if the name ends in .astro, read the
content, rewrite it, and when the result differs overwrite the file and
print a notification; otherwise (or when the name does not end in .astro)
leave the file alone and print nothing. Returns the file as left on disk
and the optional printed line. -/
def processFile (f : FileEnt) : FileEnt × Option (List Char) :=
  if endsWithAstro f.path then
    if subst f.content = f.content then (f, none)
    else (⟨f.path, subst f.content⟩, some (("Fixing ").toList ++ f.path))
  else (f, none)

/-- Modelled from the spec: the directory walker (os.walk, Python stdlib,
not part of this repository). A root is either missing or unreadable (none)
or a readable tree flattened to its reachable regular files (some);
per the spec a missing or unreadable root yields zero entries and raises
no error. -/
def walk : Option (List FileEnt) → List FileEnt
  | none => []
  | some fs => fs

/-- fix_astro_files(directory): walk the root and process every file;
returns the files as left on disk and the printed lines in order. -/
def fix_astro_files (root : Option (List FileEnt)) : List FileEnt × List (List Char) :=
  ((walk root).map (fun f => (processFile f).1),
   (walk root).filterMap (fun f => (processFile f).2))

/-- Occurrence test for the literal substring class= ; every match of the
pattern contains it. -/
def hasClassEq : List Char → Bool
  | [] => false
  | c :: cs => (matchLit classEq (c :: cs)).isSome || hasClassEq cs

/-- No < in the text is followed by an uppercase ASCII letter: the shape of
a text all of whose tags start with a lowercase (or non-letter) character. -/
def noUpperTag : List Char → Bool
  | [] => true
  | _ :: [] => true
  | c1 :: c2 :: cs => !(c1 = '<' && isUpperAZ c2) && noUpperTag (c2 :: cs)

theorem matchLit_length : ∀ (l s r : List Char), matchLit l s = some r → r.length ≤ s.length := by
  intro l
  induction l with
  | nil =>
    intro s r h
    simp only [matchLit, Option.some.injEq] at h
    simp [h]
  | cons x ls ih =>
    intro s r h
    cases s with
    | nil => simp [matchLit] at h
    | cons c cs =>
      simp only [matchLit] at h
      split at h
      · exact Nat.le_succ_of_le (ih cs r h)
      · simp at h

theorem quotedBody_length : ∀ (s b : List Char) (q : Char) (r : List Char), quotedBody s = some (b, q, r) → r.length < s.length := by
  intro s
  induction s with
  | nil => intro b q r h; simp [quotedBody] at h
  | cons c cs ih =>
    intro b q r h
    simp only [quotedBody] at h
    split at h
    · simp only [Option.some.injEq, Prod.mk.injEq] at h
      obtain ⟨-, -, hr⟩ := h
      subst hr
      simp
    · cases hqb : quotedBody cs with
      | none => rw [hqb] at h; simp at h
      | some t =>
        obtain ⟨b1, q1, r1⟩ := t
        rw [hqb] at h
        simp only [Option.some.injEq, Prod.mk.injEq] at h
        obtain ⟨-, -, hr⟩ := h
        subst hr
        exact Nat.lt_succ_of_lt (ih b1 q1 r1 hqb)

theorem matchQuoted_length : ∀ (s g2 r : List Char), matchQuoted s = some (g2, r) → r.length < s.length := by
  intro s g2 r h
  cases s with
  | nil => simp [matchQuoted] at h
  | cons q rest =>
    simp only [matchQuoted] at h
    split at h
    · cases hqb : quotedBody rest with
      | none => rw [hqb] at h; simp at h
      | some t =>
        obtain ⟨b1, q1, r1⟩ := t
        rw [hqb] at h
        simp only [Option.some.injEq, Prod.mk.injEq] at h
        obtain ⟨-, hr⟩ := h
        subst hr
        exact Nat.lt_succ_of_lt (quotedBody_length rest b1 q1 r1 hqb)
    · simp at h

theorem tryClassHere_length : ∀ (p : Char) (s g2 r : List Char), tryClassHere p s = some (g2, r) → r.length < s.length := by
  intro p s g2 r h
  simp only [tryClassHere] at h
  split at h
  · simp at h
  · cases hml : matchLit classEq s with
    | none => rw [hml] at h; simp at h
    | some s1 =>
      rw [hml] at h
      have h1 := matchLit_length classEq s s1 hml
      have h2 := matchQuoted_length s1 g2 r h
      omega

theorem lazyLoop_length : ∀ (s : List Char) (p : Char) (l g2 r : List Char), lazyLoop p s = some (l, g2, r) → r.length < s.length := by
  intro s
  induction s with
  | nil =>
    intro p l g2 r h
    simp only [lazyLoop] at h
    split at h
    · rename_i a b heq
      simp only [Option.some.injEq, Prod.mk.injEq] at h
      obtain ⟨-, -, hr⟩ := h
      subst hr
      exact tryClassHere_length p [] a b heq
    · simp at h
  | cons c cs ih =>
    intro p l g2 r h
    simp only [lazyLoop] at h
    split at h
    · rename_i a b heq
      simp only [Option.some.injEq, Prod.mk.injEq] at h
      obtain ⟨-, -, hr⟩ := h
      subst hr
      exact tryClassHere_length p (c :: cs) a b heq
    · split at h
      · simp at h
      · cases hll : lazyLoop c cs with
        | none => rw [hll] at h; simp at h
        | some t =>
          obtain ⟨l1, g1, r1⟩ := t
          rw [hll] at h
          simp only [Option.some.injEq, Prod.mk.injEq] at h
          obtain ⟨-, -, hr⟩ := h
          subst hr
          exact Nat.lt_succ_of_lt (ih c l1 g1 r1 hll)

theorem wsThenLazy_length : ∀ (s : List Char) (p : Char) (l g2 r : List Char), wsThenLazy p s = some (l, g2, r) → r.length < s.length := by
  intro s
  induction s with
  | nil =>
    intro p l g2 r h
    simp only [wsThenLazy] at h
    exact lazyLoop_length [] p l g2 r h
  | cons c cs ih =>
    intro p l g2 r h
    simp only [wsThenLazy] at h
    split at h
    · cases hws : wsThenLazy c cs with
      | none => rw [hws] at h; exact lazyLoop_length (c :: cs) p l g2 r h
      | some t =>
        obtain ⟨l1, g1, r1⟩ := t
        rw [hws] at h
        simp only [Option.some.injEq, Prod.mk.injEq] at h
        obtain ⟨-, -, hr⟩ := h
        subst hr
        exact Nat.lt_succ_of_lt (ih c l1 g1 r1 hws)
    · exact lazyLoop_length (c :: cs) p l g2 r h

theorem skipGroup_length : ∀ (p : Char) (s l g2 r : List Char), skipGroup p s = some (l, g2, r) → r.length < s.length := by
  intro p s l g2 r h
  simp only [skipGroup] at h
  split at h
  · rename_i a b heq
    simp only [Option.some.injEq, Prod.mk.injEq] at h
    obtain ⟨-, -, hr⟩ := h
    subst hr
    exact tryClassHere_length p s a b heq
  · simp at h

theorem afterName_length : ∀ (s : List Char) (p : Char) (l g2 r : List Char), afterName p s = some (l, g2, r) → r.length < s.length := by
  intro s p l g2 r h
  cases s with
  | nil =>
    simp only [afterName] at h
    exact skipGroup_length p [] l g2 r h
  | cons c cs =>
    simp only [afterName] at h
    split at h
    · cases hws : wsThenLazy c cs with
      | none => rw [hws] at h; exact skipGroup_length p (c :: cs) l g2 r h
      | some t =>
        obtain ⟨l1, g1, r1⟩ := t
        rw [hws] at h
        simp only [Option.some.injEq, Prod.mk.injEq] at h
        obtain ⟨-, -, hr⟩ := h
        subst hr
        exact Nat.lt_succ_of_lt (wsThenLazy_length cs c l1 g1 r1 hws)
    · exact skipGroup_length p (c :: cs) l g2 r h

theorem nameLoop_length : ∀ (s : List Char) (p : Char) (l g2 r : List Char), nameLoop p s = some (l, g2, r) → r.length < s.length := by
  intro s
  induction s with
  | nil =>
    intro p l g2 r h
    simp only [nameLoop] at h
    exact afterName_length [] p l g2 r h
  | cons c cs ih =>
    intro p l g2 r h
    simp only [nameLoop] at h
    split at h
    · cases hnl : nameLoop c cs with
      | none => rw [hnl] at h; exact afterName_length (c :: cs) p l g2 r h
      | some t =>
        obtain ⟨l1, g1, r1⟩ := t
        rw [hnl] at h
        simp only [Option.some.injEq, Prod.mk.injEq] at h
        obtain ⟨-, -, hr⟩ := h
        subst hr
        exact Nat.lt_succ_of_lt (ih c l1 g1 r1 hnl)
    · exact afterName_length (c :: cs) p l g2 r h

theorem tryMatch_length : ∀ (s g1 g2 r : List Char), tryMatch s = some (g1, g2, r) → r.length < s.length := by
  intro s g1 g2 r h
  match s with
  | [] => simp [tryMatch] at h
  | x :: [] => simp [tryMatch] at h
  | l :: u :: [] =>
    simp only [tryMatch] at h
    split at h
    · split at h
      · simp at h
      · simp at h
    · simp at h
  | l :: u :: c :: cs =>
    simp only [tryMatch] at h
    split at h
    · split at h
      · split at h
        · cases hnl : nameLoop c cs with
          | none => rw [hnl] at h; simp at h
          | some t =>
            obtain ⟨l1, gg2, r1⟩ := t
            rw [hnl] at h
            simp only [Option.some.injEq, Prod.mk.injEq] at h
            obtain ⟨-, -, hr⟩ := h
            subst hr
            have := nameLoop_length cs c l1 gg2 r1 hnl
            simp only [List.length_cons]
            omega
        · simp at h
      · simp at h
    · simp at h

theorem substAux_congr : ∀ (f1 f2 : Nat) (s : List Char), s.length ≤ f1 → s.length ≤ f2 → substAux f1 s = substAux f2 s := by
  intro f1
  induction f1 with
  | zero =>
    intro f2 s h1 h2
    cases s with
    | nil => simp [substAux]
    | cons c cs => simp at h1
  | succ f ih =>
    intro f2 s h1 h2
    cases s with
    | nil => simp [substAux]
    | cons c cs =>
      cases f2 with
      | zero => simp at h2
      | succ f2p =>
        cases hm : tryMatch (c :: cs) with
        | none =>
          simp only [substAux, hm]
          simp only [List.length_cons] at h1 h2
          rw [ih f2p cs (by omega) (by omega)]
        | some t =>
          obtain ⟨g1, g2, rest⟩ := t
          have hlen := tryMatch_length (c :: cs) g1 g2 rest hm
          simp only [substAux, hm]
          simp only [List.length_cons] at h1 h2 hlen
          rw [ih f2p rest (by omega) (by omega)]

theorem substAux_eq_subst (f : Nat) (s : List Char) (h : s.length ≤ f) : substAux f s = subst s :=
  substAux_congr f s.length s h (Nat.le_refl _)

theorem subst_nil : subst [] = [] := rfl

theorem subst_eq_match : ∀ (s g1 g2 rest : List Char), tryMatch s = some (g1, g2, rest) → subst s = g1 ++ classNameEq ++ g2 ++ subst rest := by
  intro s g1 g2 rest h
  cases s with
  | nil => simp [tryMatch] at h
  | cons c cs =>
    have hlen := tryMatch_length (c :: cs) g1 g2 rest h
    simp only [List.length_cons] at hlen
    show substAux (c :: cs).length (c :: cs) = _
    simp only [List.length_cons, substAux, h]
    rw [substAux_eq_subst cs.length rest (by omega)]

theorem subst_eq_nomatch : ∀ (c : Char) (cs : List Char), tryMatch (c :: cs) = none → subst (c :: cs) = c :: subst cs := by
  intro c cs h
  show substAux (c :: cs).length (c :: cs) = _
  simp only [List.length_cons, substAux, h]
  rw [substAux_eq_subst cs.length cs (Nat.le_refl _)]

theorem hasClassEq_of_tail : ∀ (c : Char) (cs : List Char), hasClassEq cs = true → hasClassEq (c :: cs) = true := by
  intro c cs h
  simp [hasClassEq, h]

theorem tryClassHere_hasClassEq : ∀ (p : Char) (s : List Char) (t : List Char × List Char), tryClassHere p s = some t → hasClassEq s = true := by
  intro p s t h
  simp only [tryClassHere] at h
  split at h
  · simp at h
  · cases hml : matchLit classEq s with
    | none => rw [hml] at h; simp at h
    | some s1 =>
      cases s with
      | nil => simp [matchLit, classEq] at hml
      | cons c cs => simp [hasClassEq, hml]

theorem lazyLoop_hasClassEq : ∀ (s : List Char) (p : Char) (t : List Char × List Char × List Char), lazyLoop p s = some t → hasClassEq s = true := by
  intro s
  induction s with
  | nil =>
    intro p t h
    simp only [lazyLoop] at h
    split at h
    · rename_i a b heq
      exact tryClassHere_hasClassEq p [] (a, b) heq
    · simp at h
  | cons c cs ih =>
    intro p t h
    simp only [lazyLoop] at h
    split at h
    · rename_i a b heq
      exact tryClassHere_hasClassEq p (c :: cs) (a, b) heq
    · split at h
      · simp at h
      · cases hll : lazyLoop c cs with
        | none => rw [hll] at h; simp at h
        | some t1 => exact hasClassEq_of_tail c cs (ih c t1 hll)

theorem wsThenLazy_hasClassEq : ∀ (s : List Char) (p : Char) (t : List Char × List Char × List Char), wsThenLazy p s = some t → hasClassEq s = true := by
  intro s
  induction s with
  | nil =>
    intro p t h
    simp only [wsThenLazy] at h
    exact lazyLoop_hasClassEq [] p t h
  | cons c cs ih =>
    intro p t h
    simp only [wsThenLazy] at h
    split at h
    · cases hws : wsThenLazy c cs with
      | none => rw [hws] at h; exact lazyLoop_hasClassEq (c :: cs) p t h
      | some t1 => exact hasClassEq_of_tail c cs (ih c t1 hws)
    · exact lazyLoop_hasClassEq (c :: cs) p t h

theorem skipGroup_hasClassEq : ∀ (p : Char) (s : List Char) (t : List Char × List Char × List Char), skipGroup p s = some t → hasClassEq s = true := by
  intro p s t h
  simp only [skipGroup] at h
  split at h
  · rename_i a b heq
    exact tryClassHere_hasClassEq p s (a, b) heq
  · simp at h

theorem afterName_hasClassEq : ∀ (s : List Char) (p : Char) (t : List Char × List Char × List Char), afterName p s = some t → hasClassEq s = true := by
  intro s p t h
  cases s with
  | nil =>
    simp only [afterName] at h
    exact skipGroup_hasClassEq p [] t h
  | cons c cs =>
    simp only [afterName] at h
    split at h
    · cases hws : wsThenLazy c cs with
      | none => rw [hws] at h; exact skipGroup_hasClassEq p (c :: cs) t h
      | some t1 => exact hasClassEq_of_tail c cs (wsThenLazy_hasClassEq cs c t1 hws)
    · exact skipGroup_hasClassEq p (c :: cs) t h

theorem nameLoop_hasClassEq : ∀ (s : List Char) (p : Char) (t : List Char × List Char × List Char), nameLoop p s = some t → hasClassEq s = true := by
  intro s
  induction s with
  | nil =>
    intro p t h
    simp only [nameLoop] at h
    exact afterName_hasClassEq [] p t h
  | cons c cs ih =>
    intro p t h
    simp only [nameLoop] at h
    split at h
    · cases hnl : nameLoop c cs with
      | none => rw [hnl] at h; exact afterName_hasClassEq (c :: cs) p t h
      | some t1 => exact hasClassEq_of_tail c cs (ih c t1 hnl)
    · exact afterName_hasClassEq (c :: cs) p t h

theorem tryMatch_hasClassEq : ∀ (s : List Char) (t : List Char × List Char × List Char), tryMatch s = some t → hasClassEq s = true := by
  intro s t h
  match s with
  | [] => simp [tryMatch] at h
  | x :: [] => simp [tryMatch] at h
  | l :: u :: [] =>
    simp only [tryMatch] at h
    split at h
    · split at h
      · simp at h
      · simp at h
    · simp at h
  | l :: u :: c :: cs =>
    simp only [tryMatch] at h
    split at h
    · split at h
      · split at h
        · cases hnl : nameLoop c cs with
          | none => rw [hnl] at h; simp at h
          | some t1 =>
            exact hasClassEq_of_tail l _ (hasClassEq_of_tail u _ (hasClassEq_of_tail c _ (nameLoop_hasClassEq cs c t1 hnl)))
        · simp at h
      · simp at h
    · simp at h

theorem tryMatch_none_of_no_hasClassEq : ∀ (s : List Char), hasClassEq s = false → tryMatch s = none := by
  intro s h
  cases hm : tryMatch s with
  | none => rfl
  | some t => rw [tryMatch_hasClassEq s t hm] at h; simp at h

theorem substAux_id_of_no_hasClassEq : ∀ (f : Nat) (s : List Char), hasClassEq s = false → substAux f s = s := by
  intro f
  induction f with
  | zero =>
    intro s h
    cases s with
    | nil => simp [substAux]
    | cons c cs => simp [substAux]
  | succ f ih =>
    intro s h
    cases s with
    | nil => simp [substAux]
    | cons c cs =>
      simp only [substAux]
      rw [tryMatch_none_of_no_hasClassEq (c :: cs) h]
      simp only [hasClassEq, Bool.or_eq_false_iff] at h
      rw [ih cs h.2]

theorem subst_id_of_no_hasClassEq (s : List Char) (h : hasClassEq s = false) : subst s = s :=
  substAux_id_of_no_hasClassEq s.length s h

theorem tryMatch_shape : ∀ (s : List Char) (t : List Char × List Char × List Char), tryMatch s = some t → ∃ (u c : Char) (rest : List Char), s = '<' :: u :: c :: rest ∧ isUpperAZ u = true ∧ isWordDot c = true := by
  intro s t h
  match s with
  | [] => simp [tryMatch] at h
  | x :: [] => simp [tryMatch] at h
  | l :: u :: [] =>
    simp only [tryMatch] at h
    split at h
    · split at h
      · simp at h
      · simp at h
    · simp at h
  | l :: u :: c :: cs =>
    simp only [tryMatch] at h
    split at h
    · split at h
      · split at h
        · rename_i hlt hup hwd
          exact ⟨u, c, cs, by rw [hlt], hup, hwd⟩
        · simp at h
      · simp at h
    · simp at h

theorem tryMatch_none_of_noUpperTag : ∀ (s : List Char), noUpperTag s = true → tryMatch s = none := by
  intro s h
  cases hm : tryMatch s with
  | none => rfl
  | some t =>
    obtain ⟨u, c, rest, hs, hu, -⟩ := tryMatch_shape s t hm
    subst hs
    simp [noUpperTag, hu] at h

theorem noUpperTag_tail : ∀ (c : Char) (cs : List Char), noUpperTag (c :: cs) = true → noUpperTag cs = true := by
  intro c cs h
  cases cs with
  | nil => simp [noUpperTag]
  | cons c2 cs2 =>
    simp only [noUpperTag, Bool.and_eq_true] at h
    exact h.2

theorem substAux_id_of_noUpperTag : ∀ (f : Nat) (s : List Char), noUpperTag s = true → substAux f s = s := by
  intro f
  induction f with
  | zero =>
    intro s h
    cases s with
    | nil => simp [substAux]
    | cons c cs => simp [substAux]
  | succ f ih =>
    intro s h
    cases s with
    | nil => simp [substAux]
    | cons c cs =>
      simp only [substAux]
      rw [tryMatch_none_of_noUpperTag (c :: cs) h]
      rw [ih cs (noUpperTag_tail c cs h)]

theorem subst_id_of_noUpperTag (s : List Char) (h : noUpperTag s = true) : subst s = s :=
  substAux_id_of_noUpperTag s.length s h

/-- Simple-case input of the spec's test properties. -/
def tSimple : List Char := ("<Foo class=\"a b\"></Foo>").toList

/-- Expected output for tSimple. -/
def tSimpleOut : List Char := ("<Foo className=\"a b\"></Foo>").toList

/-- Lowercase-tag input of the spec's test properties. -/
def tLower : List Char := ("<div class=\"x\"></div>").toList

/-- Two-tag input of the spec's test properties. -/
def tTwoTags : List Char := ("<Foo class=\"x\" /> <Bar class=\"y\" />").toList

/-- Expected output for tTwoTags. -/
def tTwoTagsOut : List Char := ("<Foo className=\"x\" /> <Bar className=\"y\" />").toList

/-- Dotted-tag input of the spec's test properties. -/
def tDotted : List Char := ("<My.Sub class=\"z\">").toList

/-- Expected output for tDotted. -/
def tDottedOut : List Char := ("<My.Sub className=\"z\">").toList

/-- Input whose tag name is a single uppercase letter. -/
def tSingleLetter : List Char := ("<A class=\"x\">").toList

/-- Input whose attribute value opens with a double quote and closes with a
single quote. -/
def tMismatch : List Char := ("<Foo class=\"a").toList ++ ('\'' :: '>' :: [])

/-- Expected output for tMismatch. -/
def tMismatchOut : List Char := ("<Foo className=\"a").toList ++ ('\'' :: '>' :: [])

/-- A tag carrying two class attributes: the spec's own known-limitation
input. -/
def tTwoClass : List Char := ("<Foo class=\"a\" class=\"b\">").toList

/-- Claim C1, as stated, is false: on the tag <Foo class="a" class="b">
one application rewrites only the first class attribute (scanning resumes
after the matched span, and the rest of the tag contains no further <),
while a second application rewrites the second one, so running the rewriter
twice differs from running it once. -/
theorem c1_not_idempotent_counterexample : subst (subst tTwoClass) ≠ subst tTwoClass := by decide

/-- Claim C1 (amended): the rewriter is idempotent on every text whose
one-pass output contains no occurrence of the literal substring class=
(in particular on markup already using className=, whose rewrite is the
identity); a tag carrying several class attributes is rewritten one
attribute per pass, so idempotence fails in general. -/
theorem c1_idempotent_of_clean_output (t : List Char) (h : hasClassEq (subst t) = false) : subst (subst t) = subst t :=
  subst_id_of_no_hasClassEq (subst t) h

/-- Witness for C1 (amended) at the spec's simple-case input. -/
theorem c1_idempotent_of_clean_output_witness : hasClassEq (subst tSimple) = false ∧ subst (subst tSimple) = subst tSimple :=
  ⟨by decide, c1_idempotent_of_clean_output tSimple (by decide)⟩

/-- Claim C2: the input <Foo class="a b"></Foo> is rewritten to exactly
<Foo className="a b"></Foo>, the captured quoted value preserved unchanged
including its quote characters. -/
theorem c2_simple_substitution : subst tSimple = tSimpleOut := by decide

/-- Claim C3: on every text in which no < is followed by an uppercase ASCII
letter (in particular a text all of whose tags start with a lowercase
letter), the rewriter is the identity. -/
theorem c3_lowercase_untouched (t : List Char) (h : noUpperTag t = true) : subst t = t :=
  subst_id_of_noUpperTag t h

/-- Witness for C3 at the spec's input <div class="x"></div>. -/
theorem c3_lowercase_untouched_witness : noUpperTag tLower = true ∧ subst tLower = tLower :=
  ⟨by decide, c3_lowercase_untouched tLower (by decide)⟩

/-- Claim C4: substitution is global in one pass with left-to-right
non-overlapping semantics: whenever the pattern matches at the head of the
text, the output is the replacement followed by the rewrite of the
remainder after the matched span (scanning resumes right after it); and the
two-tag input <Foo class="x" /> <Bar class="y" /> has both matches
rewritten in one application. -/
theorem c4_global_single_pass : subst tTwoTags = tTwoTagsOut ∧ (∀ s g1 g2 rest : List Char, tryMatch s = some (g1, g2, rest) → subst s = g1 ++ classNameEq ++ g2 ++ subst rest) :=
  ⟨by decide, subst_eq_match⟩

/-- Witness for C4 at the head match of the two-tag input. -/
theorem c4_global_single_pass_witness : subst tTwoTags = ("<Foo ").toList ++ classNameEq ++ ("\"x\"").toList ++ subst ((" /> <Bar class=\"y\" />").toList) :=
  c4_global_single_pass.2 tTwoTags (("<Foo ").toList) (("\"x\"").toList) ((" /> <Bar class=\"y\" />").toList) (by decide)

/-- Claim C5: the dotted component tag input <My.Sub class="z"> is
rewritten to <My.Sub className="z">. -/
theorem c5_dotted_tag : subst tDotted = tDottedOut := by decide

/-- Claim C6: for every file whose name passes the .astro filter, either
the rewritten content differs from the original and the file is overwritten
in full with it alongside a Fixing notification, or the rewritten content
is identical and the file is left alone with no notification. -/
theorem c6_noop_preservation (f : FileEnt) (h : endsWithAstro f.path = true) : (subst f.content ≠ f.content ∧ processFile f = (⟨f.path, subst f.content⟩, some (("Fixing ").toList ++ f.path))) ∨ (subst f.content = f.content ∧ processFile f = (f, none)) := by
  by_cases hc : subst f.content = f.content
  · exact Or.inr ⟨hc, by simp [processFile, h, hc]⟩
  · exact Or.inl ⟨hc, by simp [processFile, h, hc]⟩

/-- Witness for C6 at a concrete .astro file whose content changes. -/
theorem c6_noop_preservation_witness : endsWithAstro (("a.astro").toList) = true ∧ ((subst tSimple ≠ tSimple ∧ processFile ⟨("a.astro").toList, tSimple⟩ = (⟨("a.astro").toList, subst tSimple⟩, some (("Fixing ").toList ++ ("a.astro").toList))) ∨ (subst tSimple = tSimple ∧ processFile ⟨("a.astro").toList, tSimple⟩ = (⟨("a.astro").toList, tSimple⟩, none))) :=
  ⟨by decide, c6_noop_preservation ⟨("a.astro").toList, tSimple⟩ (by decide)⟩

/-- Claim C7: a file whose name does not end with the literal suffix .astro
is never rewritten and never logged, regardless of its content. -/
theorem c7_extension_filter (f : FileEnt) (h : endsWithAstro f.path = false) : processFile f = (f, none) := by
  simp [processFile, h]

/-- Witness for C7 at component.html holding a rewritable pattern. -/
theorem c7_extension_filter_witness : endsWithAstro (("component.html").toList) = false ∧ processFile ⟨("component.html").toList, tSimple⟩ = (⟨("component.html").toList, tSimple⟩, none) :=
  ⟨by decide, c7_extension_filter ⟨("component.html").toList, tSimple⟩ (by decide)⟩

/-- Claim C8: a missing or unreadable root directory makes the walk yield
zero entries, so the run touches no file and prints nothing (and raises no
error: fix_astro_files is total). -/
theorem c8_missing_root_silent_noop : walk none = [] ∧ fix_astro_files none = ([], []) :=
  ⟨rfl, rfl⟩

/-- Claim C9: a match requires <, an uppercase ASCII letter, and at least
one further word-or-dot character, so the single-letter tag input
<A class="x"> is returned unchanged. -/
theorem c9_single_letter_tag_unmatched : subst tSingleLetter = tSingleLetter ∧ (∀ s : List Char, (tryMatch s).isSome = true → ∃ (u c : Char) (rest : List Char), s = '<' :: u :: c :: rest ∧ isUpperAZ u = true ∧ isWordDot c = true) := by
  constructor
  · decide
  · intro s hs
    cases hm : tryMatch s with
    | none => rw [hm] at hs; simp at hs
    | some t => exact tryMatch_shape s t hm

/-- Witness for C9 at the two-letter tag input <Ab class="x">, where the
pattern does match. -/
theorem c9_single_letter_tag_unmatched_witness : ∃ (u c : Char) (rest : List Char), ("<Ab class=\"x\">").toList = '<' :: u :: c :: rest ∧ isUpperAZ u = true ∧ isWordDot c = true :=
  c9_single_letter_tag_unmatched.2 (("<Ab class=\"x\">").toList) (by decide)

/-- Claim C10: the opening and closing quote of the attribute value are
chosen independently, so <Foo class="a followed by a single quote and >
is rewritten with the mismatched quotes preserved. -/
theorem c10_mismatched_quotes_accepted : subst tMismatch = tMismatchOut := by decide

end FixAstro
